import Mathlib

/-!
Verification development for the ShadowMint contract (contracts/ShadowMint.sol).

Addresses and ciphertext handles are modelled as natural numbers, with 0 the
zero address.  Solidity mappings are modelled as total functions with the
Solidity default value (0, empty list, empty token record).  The external
FHE access-control list is modelled, following the specification, as the
relation of (ciphertext handle, address) pairs that may decrypt; the two
library calls FHE.allow / FHE.allowThis insert into this relation.  Proof
validation (FHE.fromExternal) is an external service, modelled as a
parameter returning the validated handle on success.
-/

namespace ShadowMint

/-- A token record, mirroring struct TokenData.  The Solidity mapping default
is owner = 0 (token does not exist), handle 0, empty URI. -/
structure TokenData where
  owner : Nat
  realOwner : Nat
  metadataURI : String
deriving Repr, DecidableEq

/-- Pointwise map update, modelling a Solidity mapping write. -/
def upd {β : Type} (f : Nat → β) (k : Nat) (v : β) : Nat → β :=
  fun x => if x = k then v else f x

/-- Modelled from the spec: the external ACL subsystem keeps a relation of
(ciphertext handle, address) pairs that may decrypt; FHE.allow inserts a pair.
Insertion is set-like (idempotent), as the spec states for grants. -/
def aclAllow (acl : List (Nat × Nat)) (handle account : Nat) : List (Nat × Nat) :=
  if (handle, account) ∈ acl then acl else (handle, account) :: acl

/-- The full contract state: the storage variables of ShadowMint plus the
modelled ACL relation and the contract's own address (for FHE.allowThis). -/
structure State where
  nextTokenId : Nat
  tokens : Nat → TokenData
  balances : Nat → Nat
  ownedTokens : Nat → List Nat
  ownedTokenIndex : Nat → Nat
  acl : List (Nat × Nat)
  self : Nat

/-- Freshly deployed state: counter starts at 1, all mappings at defaults. -/
def initialState (self : Nat) : State :=
  { nextTokenId := 1
    tokens := fun _ => { owner := 0, realOwner := 0, metadataURI := "" }
    balances := fun _ => 0
    ownedTokens := fun _ => []
    ownedTokenIndex := fun _ => 0
    acl := []
    self := self }

/-- Error taxonomy of the specification; each constructor carries the revert
message string used by the contract. -/
inductive Err where
  | NotFound (msg : String)
  | Unauthorized (msg : String)
  | InvalidArgument (msg : String)
  | InconsistentState (msg : String)
  | InvalidCiphertext
  | InvalidReceiver (msg : String)
deriving Repr, DecidableEq

/-- totalSupply(): nextTokenId - 1. -/
def totalSupply (s : State) : Nat := s.nextTokenId - 1

/-- balanceOf(owner): requires owner nonzero ("Invalid owner"), which the
spec classifies as InvalidArgument. -/
def balanceOf (s : State) (owner : Nat) : Except Err Nat :=
  if owner = 0 then .error (.InvalidArgument "Invalid owner")
  else .ok (s.balances owner)

/-- ownerOf(tokenId): requires the stored owner nonzero ("Token does not
exist"), classified NotFound. -/
def ownerOf (s : State) (tokenId : Nat) : Except Err Nat :=
  if (s.tokens tokenId).owner = 0 then .error (.NotFound "Token does not exist")
  else .ok (s.tokens tokenId).owner

/-- tokenURI(tokenId), via the same existence check (_getToken). -/
def tokenURI (s : State) (tokenId : Nat) : Except Err String :=
  if (s.tokens tokenId).owner = 0 then .error (.NotFound "Token does not exist")
  else .ok (s.tokens tokenId).metadataURI

/-- getEncryptedRealOwner(tokenId), via the same existence check (_getToken). -/
def getEncryptedRealOwner (s : State) (tokenId : Nat) : Except Err Nat :=
  if (s.tokens tokenId).owner = 0 then .error (.NotFound "Token does not exist")
  else .ok (s.tokens tokenId).realOwner

/-- tokensOfOwner(owner): returns the owned-token array (never fails). -/
def tokensOfOwner (s : State) (owner : Nat) : List Nat :=
  s.ownedTokens owner

/-- _addOwnedToken: record the reverse index at the pre-push length, then
push the id onto the owner's array. -/
def addOwnedToken (s : State) (owner tokenId : Nat) : State :=
  { s with
    ownedTokenIndex := upd s.ownedTokenIndex tokenId (s.ownedTokens owner).length
    ownedTokens := upd s.ownedTokens owner (s.ownedTokens owner ++ [tokenId]) }

/-- _removeOwnedToken: swap-with-last (when the removed id is not last),
update the moved element's reverse index, pop the array, and delete the
removed id's index entry (mapping delete resets it to 0). -/
def removeOwnedToken (s : State) (owner tokenId : Nat) : State :=
  let l := s.ownedTokens owner
  let lastIndex := l.length - 1
  let index := s.ownedTokenIndex tokenId
  let s1 :=
    if index ≠ lastIndex then
      let lastTokenId := l.getD lastIndex 0
      { s with
        ownedTokens := upd s.ownedTokens owner (l.set index lastTokenId)
        ownedTokenIndex := upd s.ownedTokenIndex lastTokenId index }
    else s
  { s1 with
    ownedTokens := upd s1.ownedTokens owner ((s1.ownedTokens owner).dropLast)
    ownedTokenIndex := upd s1.ownedTokenIndex tokenId 0 }

/-- mint(metadataURI, encryptedRealOwner, inputProof) called by caller.
validate models FHE.fromExternal: it returns the validated handle, or fails
(InvalidCiphertext).  On success: allocate the next id, store the record,
bump the balance, index and push the id, grant the contract (allowThis) and
the minter decrypt access.  Returns (tokenId, new state). -/
def mint (validate : Nat → Nat → Option Nat) (caller : Nat) (metadataURI : String)
    (encryptedRealOwner inputProof : Nat) (s : State) : Except Err (Nat × State) :=
  match validate encryptedRealOwner inputProof with
  | none => .error .InvalidCiphertext
  | some validatedRealOwner =>
    let tokenId := s.nextTokenId
    let s1 := { s with
      nextTokenId := s.nextTokenId + 1
      tokens := upd s.tokens tokenId
        { owner := caller, realOwner := validatedRealOwner, metadataURI := metadataURI }
      balances := upd s.balances caller (s.balances caller + 1) }
    let s2 := { s1 with
      ownedTokenIndex := upd s1.ownedTokenIndex tokenId (s1.ownedTokens caller).length
      ownedTokens := upd s1.ownedTokens caller (s1.ownedTokens caller ++ [tokenId]) }
    let s3 := { s2 with
      acl := aclAllow (aclAllow s2.acl validatedRealOwner s2.self) validatedRealOwner caller }
    .ok (tokenId, s3)

/-- grantDecryptPermission(tokenId, account) called by caller: token must
exist (NotFound), caller must be the owner (Unauthorized "Caller is not token
owner"), account must be nonzero (InvalidArgument "Invalid account"); then
FHE.allow(realOwner, account). -/
def grantDecryptPermission (caller tokenId account : Nat) (s : State) : Except Err State :=
  if (s.tokens tokenId).owner = 0 then .error (.NotFound "Token does not exist")
  else if caller ≠ (s.tokens tokenId).owner then .error (.Unauthorized "Caller is not token owner")
  else if account = 0 then .error (.InvalidArgument "Invalid account")
  else .ok { s with acl := aclAllow s.acl (s.tokens tokenId).realOwner account }

/-- transferFrom(frm, toAddr, tokenId) called by caller.  Checks, in source
order: existence (NotFound "Token does not exist"), stored owner = frm
(InconsistentState "Transfer from incorrect owner"), caller = frm
(Unauthorized "Caller is not owner"), toAddr nonzero (InvalidArgument
"Invalid receiver").  Effects: move the balance, swap-and-pop out of frm's
array, push onto toAddr's array, set the owner, grant to decrypt access. -/
def transferFrom (caller frm toAddr tokenId : Nat) (s : State) : Except Err State :=
  let token := s.tokens tokenId
  if token.owner = 0 then .error (.NotFound "Token does not exist")
  else if token.owner ≠ frm then .error (.InconsistentState "Transfer from incorrect owner")
  else if caller ≠ frm then .error (.Unauthorized "Caller is not owner")
  else if toAddr = 0 then .error (.InvalidArgument "Invalid receiver")
  else
    let s1 := { s with balances := upd s.balances frm (s.balances frm - 1) }
    let s2 := { s1 with balances := upd s1.balances toAddr (s1.balances toAddr + 1) }
    let s3 := removeOwnedToken s2 frm tokenId
    let s4 := addOwnedToken s3 toAddr tokenId
    let s5 := { s4 with tokens := upd s4.tokens tokenId { s4.tokens tokenId with owner := toAddr } }
    .ok { s5 with acl := aclAllow s5.acl token.realOwner toAddr }

/-- The mutation performed by a successful transferFrom, as a total function
(the checks already passed): exactly the effect sequence of the source. -/
def transferUpdate (frm toAddr tokenId : Nat) (s : State) : State :=
  let token := s.tokens tokenId
  let s1 := { s with balances := upd s.balances frm (s.balances frm - 1) }
  let s2 := { s1 with balances := upd s1.balances toAddr (s1.balances toAddr + 1) }
  let s3 := removeOwnedToken s2 frm tokenId
  let s4 := addOwnedToken s3 toAddr tokenId
  let s5 := { s4 with tokens := upd s4.tokens tokenId { s4.tokens tokenId with owner := toAddr } }
  { s5 with acl := aclAllow s5.acl token.realOwner toAddr }

/-- safeTransferFrom: transferFrom, then the receiver-acknowledgment check
(_checkOnERC721Received), whose outcome is the parameter accepts; on
rejection the whole transaction reverts (InvalidReceiver "Invalid
receiver"), undoing everything. -/
def safeTransferFrom (accepts : Bool) (caller frm toAddr tokenId : Nat) (s : State) :
    Except Err State :=
  match transferFrom caller frm toAddr tokenId s with
  | .error e => .error e
  | .ok s' => if accepts then .ok s' else .error (.InvalidReceiver "Invalid receiver")

/-- The state-mutating operations of the public interface. -/
inductive Op where
  | mint (caller : Nat) (metadataURI : String) (encryptedRealOwner inputProof : Nat)
  | grant (caller tokenId account : Nat)
  | transfer (caller frm toAddr tokenId : Nat)
  | safeTransfer (accepts : Bool) (caller frm toAddr tokenId : Nat)
deriving Repr, DecidableEq

/-- The transaction sender of an operation. -/
def Op.caller : Op → Nat
  | .mint c _ _ _ => c
  | .grant c _ _ => c
  | .transfer c _ _ _ => c
  | .safeTransfer _ c _ _ _ => c

/-- Whether an operation is a mint. -/
def Op.isMint : Op → Bool
  | .mint _ _ _ _ => true
  | _ => false

/-- One state-machine step: run the operation, keeping only the new state. -/
def step (validate : Nat → Nat → Option Nat) (op : Op) (s : State) : Except Err State :=
  match op with
  | .mint c u ct pf => (mint validate c u ct pf s).map (fun r => r.2)
  | .grant c id a => grantDecryptPermission c id a s
  | .transfer c f t id => transferFrom c f t id s
  | .safeTransfer ok c f t id => safeTransferFrom ok c f t id s

/-- Transaction semantics: a failed operation reverts, leaving the state
unchanged. -/
def exec (validate : Nat → Nat → Option Nat) (op : Op) (s : State) : State :=
  match step validate op s with
  | .ok s' => s'
  | .error _ => s

/-- States reachable from a freshly deployed contract by successful
operations.  The platform guarantees the transaction sender is never the
zero address. -/
inductive Reachable (validate : Nat → Nat → Option Nat) : State → Prop where
  | init (self : Nat) : Reachable validate (initialState self)
  | step {s s' : State} {op : Op} : Reachable validate s → op.caller ≠ 0 →
      step validate op s = .ok s' → Reachable validate s'

/-- A run of successive successful operations (all senders nonzero). -/
inductive Steps (validate : Nat → Nat → Option Nat) : State → List Op → State → Prop where
  | nil (s : State) : Steps validate s [] s
  | cons {s s1 s2 : State} {op : Op} {ops : List Op} : op.caller ≠ 0 →
      step validate op s = .ok s1 → Steps validate s1 ops s2 →
      Steps validate s (op :: ops) s2

/-- A concrete validation oracle for examples: a proof value of 1 validates
and yields the ciphertext itself as the handle. -/
def exValidate : Nat → Nat → Option Nat := fun ct pf => if pf = 1 then some ct else none

/-- Example state: address 1 minted token 1 (handle 7) on a fresh contract
deployed at address 9. -/
def exS0 : State := exec exValidate (.mint 1 "uri" 7 1) (initialState 9)

/-- Example state: after the mint, the owner granted decrypt access to
address 3. -/
def exS1 : State := exec exValidate (.grant 1 1 3) exS0

/-- Example state: afterwards the owner transferred token 1 to address 2. -/
def exS2 : State := exec exValidate (.transfer 1 1 2 1) exS1

/-- Example state: a self-transfer of token 1 by its owner. -/
def exSelf : State := exec exValidate (.transfer 1 1 1 1) exS0

@[simp] theorem upd_same {β : Type} (f : Nat → β) (k : Nat) (v : β) : upd f k v k = v := by
  simp [upd]

theorem upd_ne {β : Type} {f : Nat → β} {k x : Nat} {v : β} (h : x ≠ k) : upd f k v x = f x := by
  simp [upd, h]

theorem upd_apply {β : Type} (f : Nat → β) (k x : Nat) (v : β) :
    upd f k v x = if x = k then v else f x := rfl

theorem mem_aclAllow {acl : List (Nat × Nat)} {h a x y : Nat} :
    (x, y) ∈ aclAllow acl h a ↔ ((x, y) ∈ acl ∨ (x = h ∧ y = a)) := by
  unfold aclAllow
  split <;> rename_i hmem
  · constructor
    · exact fun hx => Or.inl hx
    · rintro (hx | ⟨rfl, rfl⟩) <;> [exact hx; exact hmem]
  · simp only [List.mem_cons, Prod.mk.injEq]
    tauto

theorem aclAllow_subset {acl : List (Nat × Nat)} {h a : Nat} {p : Nat × Nat} (hp : p ∈ acl) :
    p ∈ aclAllow acl h a := by
  unfold aclAllow
  split <;> simp [hp]

theorem self_mem_aclAllow {acl : List (Nat × Nat)} {h a : Nat} : (h, a) ∈ aclAllow acl h a := by
  unfold aclAllow
  split <;> simp_all

theorem aclAllow_idem {acl : List (Nat × Nat)} {h a : Nat} :
    aclAllow (aclAllow acl h a) h a = aclAllow acl h a := by
  unfold aclAllow
  split <;> rename_i hmem
  · simp [hmem]
  · simp

/-! Projection lemmas for the owned-token helpers. -/

theorem addOwnedToken_tokens (s : State) (a0 tokenId : Nat) :
    (addOwnedToken s a0 tokenId).tokens = s.tokens := rfl

theorem addOwnedToken_balances (s : State) (a0 tokenId : Nat) :
    (addOwnedToken s a0 tokenId).balances = s.balances := rfl

theorem addOwnedToken_nextTokenId (s : State) (a0 tokenId : Nat) :
    (addOwnedToken s a0 tokenId).nextTokenId = s.nextTokenId := rfl

theorem addOwnedToken_acl (s : State) (a0 tokenId : Nat) :
    (addOwnedToken s a0 tokenId).acl = s.acl := rfl

theorem addOwnedToken_ownedTokens_self (s : State) (a0 tokenId : Nat) :
    (addOwnedToken s a0 tokenId).ownedTokens a0 = s.ownedTokens a0 ++ [tokenId] := by
  simp [addOwnedToken]

theorem addOwnedToken_ownedTokens_other (s : State) {a0 a : Nat} (tokenId : Nat) (h : a ≠ a0) :
    (addOwnedToken s a0 tokenId).ownedTokens a = s.ownedTokens a := by
  simp [addOwnedToken, upd_ne h]

theorem addOwnedToken_index_self (s : State) (a0 tokenId : Nat) :
    (addOwnedToken s a0 tokenId).ownedTokenIndex tokenId = (s.ownedTokens a0).length := by
  simp [addOwnedToken]

theorem addOwnedToken_index_other (s : State) (a0 : Nat) {tokenId t : Nat} (h : t ≠ tokenId) :
    (addOwnedToken s a0 tokenId).ownedTokenIndex t = s.ownedTokenIndex t := by
  simp [addOwnedToken, upd_ne h]

theorem removeOwnedToken_tokens (s : State) (a0 tokenId : Nat) :
    (removeOwnedToken s a0 tokenId).tokens = s.tokens := by
  by_cases h : s.ownedTokenIndex tokenId ≠ (s.ownedTokens a0).length - 1 <;>
    simp [removeOwnedToken, h]

theorem removeOwnedToken_balances (s : State) (a0 tokenId : Nat) :
    (removeOwnedToken s a0 tokenId).balances = s.balances := by
  by_cases h : s.ownedTokenIndex tokenId ≠ (s.ownedTokens a0).length - 1 <;>
    simp [removeOwnedToken, h]

theorem removeOwnedToken_nextTokenId (s : State) (a0 tokenId : Nat) :
    (removeOwnedToken s a0 tokenId).nextTokenId = s.nextTokenId := by
  by_cases h : s.ownedTokenIndex tokenId ≠ (s.ownedTokens a0).length - 1 <;>
    simp [removeOwnedToken, h]

theorem removeOwnedToken_acl (s : State) (a0 tokenId : Nat) :
    (removeOwnedToken s a0 tokenId).acl = s.acl := by
  by_cases h : s.ownedTokenIndex tokenId ≠ (s.ownedTokens a0).length - 1 <;>
    simp [removeOwnedToken, h]

theorem removeOwnedToken_self (s : State) (a0 tokenId : Nat) :
    (removeOwnedToken s a0 tokenId).self = s.self := by
  by_cases h : s.ownedTokenIndex tokenId ≠ (s.ownedTokens a0).length - 1 <;>
    simp [removeOwnedToken, h]

theorem removeOwnedToken_ownedTokens_other (s : State) {a0 a : Nat} (tokenId : Nat) (h : a ≠ a0) :
    (removeOwnedToken s a0 tokenId).ownedTokens a = s.ownedTokens a := by
  by_cases h1 : s.ownedTokenIndex tokenId ≠ (s.ownedTokens a0).length - 1 <;>
    simp [removeOwnedToken, h1, upd_ne h]

theorem removeOwnedToken_length (s : State) (a0 tokenId : Nat) :
    ((removeOwnedToken s a0 tokenId).ownedTokens a0).length = (s.ownedTokens a0).length - 1 := by
  by_cases h : s.ownedTokenIndex tokenId ≠ (s.ownedTokens a0).length - 1 <;>
    simp [removeOwnedToken, h]

theorem removeOwnedToken_get (s : State) (a0 tokenId : Nat) (j : Nat)
    (hj : j < ((removeOwnedToken s a0 tokenId).ownedTokens a0).length) :
    ((removeOwnedToken s a0 tokenId).ownedTokens a0).get ⟨j, hj⟩ =
      if j = s.ownedTokenIndex tokenId
      then (s.ownedTokens a0).getD ((s.ownedTokens a0).length - 1) 0
      else (s.ownedTokens a0).getD j 0 := by
  have hj' : j < (s.ownedTokens a0).length - 1 := by
    rw [removeOwnedToken_length] at hj; exact hj
  have hjn : j < (s.ownedTokens a0).length := lt_of_lt_of_le hj' (Nat.sub_le _ _)
  by_cases h : s.ownedTokenIndex tokenId ≠ (s.ownedTokens a0).length - 1
  · simp only [removeOwnedToken, if_pos h, List.get_eq_getElem, upd_same]
    have hset : j < ((s.ownedTokens a0).set (s.ownedTokenIndex tokenId)
        ((s.ownedTokens a0).getD ((s.ownedTokens a0).length - 1) 0)).dropLast.length := by
      simpa using hj'
    rw [List.getElem_dropLast, List.getElem_set]
    by_cases hji : j = s.ownedTokenIndex tokenId
    · simp [hji]
    · rw [if_neg (fun hh => hji hh.symm), if_neg hji, List.getD_eq_getElem _ _ hjn]
  · simp only [removeOwnedToken, if_neg h, List.get_eq_getElem, upd_same]
    have hji : j ≠ s.ownedTokenIndex tokenId := by
      push_neg at h
      omega
    rw [List.getElem_dropLast, if_neg hji, List.getD_eq_getElem _ _ hjn]

theorem removeOwnedToken_index (s : State) (a0 tokenId t : Nat) :
    (removeOwnedToken s a0 tokenId).ownedTokenIndex t =
      if t = tokenId then 0
      else if s.ownedTokenIndex tokenId ≠ (s.ownedTokens a0).length - 1 ∧
              t = (s.ownedTokens a0).getD ((s.ownedTokens a0).length - 1) 0
      then s.ownedTokenIndex tokenId
      else s.ownedTokenIndex t := by
  by_cases h : s.ownedTokenIndex tokenId ≠ (s.ownedTokens a0).length - 1
  · simp only [removeOwnedToken, if_pos h]
    by_cases ht : t = tokenId
    · simp [ht, upd]
    · by_cases hl : t = (s.ownedTokens a0).getD ((s.ownedTokens a0).length - 1) 0
      · simp [upd, ht, hl, h]
      · simp [upd, ht, hl, h]
  · simp only [removeOwnedToken, if_neg h]
    by_cases ht : t = tokenId
    · simp [ht, upd]
    · simp [upd, ht, h]

theorem removeOwnedToken_mem (s : State) {a0 tokenId : Nat}
    (hnd : (s.ownedTokens a0).Nodup)
    (hi : s.ownedTokenIndex tokenId < (s.ownedTokens a0).length)
    (hget : (s.ownedTokens a0).get ⟨s.ownedTokenIndex tokenId, hi⟩ = tokenId)
    (t : Nat) :
    t ∈ (removeOwnedToken s a0 tokenId).ownedTokens a0 ↔
      (t ∈ s.ownedTokens a0 ∧ t ≠ tokenId) := by
  have hlen := removeOwnedToken_length s a0 tokenId
  have hinj : Function.Injective (s.ownedTokens a0).get :=
    List.nodup_iff_injective_get.mp hnd
  constructor
  · intro ht
    obtain ⟨⟨j, hj⟩, hjt⟩ := List.mem_iff_get.mp ht
    have hj' : j < (s.ownedTokens a0).length - 1 := by rw [hlen] at hj; exact hj
    have hjn : j < (s.ownedTokens a0).length := lt_of_lt_of_le hj' (Nat.sub_le _ _)
    have hn1 : (s.ownedTokens a0).length - 1 < (s.ownedTokens a0).length := by omega
    rw [removeOwnedToken_get s a0 tokenId j hj] at hjt
    by_cases hji : j = s.ownedTokenIndex tokenId
    · rw [if_pos hji, List.getD_eq_getElem _ _ hn1] at hjt
      subst hjt
      refine ⟨List.getElem_mem _, ?_⟩
      intro hcontra
      rw [← hget, List.get_eq_getElem] at hcontra
      have := @hinj ⟨(s.ownedTokens a0).length - 1, hn1⟩
        ⟨s.ownedTokenIndex tokenId, hi⟩ (by simpa [List.get_eq_getElem] using hcontra)
      have : (s.ownedTokens a0).length - 1 = s.ownedTokenIndex tokenId :=
        congrArg Fin.val this
      omega
    · rw [if_neg hji, List.getD_eq_getElem _ _ hjn] at hjt
      subst hjt
      refine ⟨List.getElem_mem _, ?_⟩
      intro hcontra
      rw [← hget, List.get_eq_getElem] at hcontra
      have := @hinj ⟨j, hjn⟩ ⟨s.ownedTokenIndex tokenId, hi⟩
        (by simpa [List.get_eq_getElem] using hcontra)
      exact hji (congrArg Fin.val this)
  · rintro ⟨ht, hne⟩
    obtain ⟨⟨k, hk⟩, hkt⟩ := List.mem_iff_get.mp ht
    have hki : k ≠ s.ownedTokenIndex tokenId := by
      intro hcontra
      apply hne
      rw [← hkt, ← hget]
      congr 1
      exact Fin.ext hcontra
    rw [List.mem_iff_get]
    by_cases hk1 : k < (s.ownedTokens a0).length - 1
    · refine ⟨⟨k, by rw [hlen]; exact hk1⟩, ?_⟩
      rw [removeOwnedToken_get s a0 tokenId k, if_neg hki, List.getD_eq_getElem _ _ hk]
      simpa [List.get_eq_getElem] using hkt
    · have hkeq : k = (s.ownedTokens a0).length - 1 := by omega
      have hilt : s.ownedTokenIndex tokenId < (s.ownedTokens a0).length - 1 := by omega
      have hn1 : (s.ownedTokens a0).length - 1 < (s.ownedTokens a0).length := by omega
      refine ⟨⟨s.ownedTokenIndex tokenId, by rw [hlen]; exact hilt⟩, ?_⟩
      rw [removeOwnedToken_get s a0 tokenId _ _, if_pos rfl, List.getD_eq_getElem _ _ hn1]
      simpa [List.get_eq_getElem, hkeq] using hkt

theorem removeOwnedToken_nodup (s : State) (a0 tokenId : Nat)
    (hnd : (s.ownedTokens a0).Nodup) :
    ((removeOwnedToken s a0 tokenId).ownedTokens a0).Nodup := by
  have hlen := removeOwnedToken_length s a0 tokenId
  have hinj : Function.Injective (s.ownedTokens a0).get :=
    List.nodup_iff_injective_get.mp hnd
  rw [List.nodup_iff_injective_get]
  rintro ⟨j, hj⟩ ⟨k, hk⟩ hjk
  have hj' : j < (s.ownedTokens a0).length - 1 := by rw [hlen] at hj; exact hj
  have hk' : k < (s.ownedTokens a0).length - 1 := by rw [hlen] at hk; exact hk
  have hjn : j < (s.ownedTokens a0).length := by omega
  have hkn : k < (s.ownedTokens a0).length := by omega
  have hn1 : (s.ownedTokens a0).length - 1 < (s.ownedTokens a0).length := by omega
  rw [removeOwnedToken_get s a0 tokenId j hj, removeOwnedToken_get s a0 tokenId k hk] at hjk
  apply Fin.ext
  show j = k
  by_cases hji : j = s.ownedTokenIndex tokenId <;>
    by_cases hki : k = s.ownedTokenIndex tokenId
  · omega
  · rw [if_pos hji, if_neg hki, List.getD_eq_getElem _ _ hn1,
      List.getD_eq_getElem _ _ hkn] at hjk
    have := @hinj ⟨(s.ownedTokens a0).length - 1, hn1⟩ ⟨k, hkn⟩
      (by simpa [List.get_eq_getElem] using hjk)
    have : (s.ownedTokens a0).length - 1 = k := congrArg Fin.val this
    omega
  · rw [if_neg hji, if_pos hki, List.getD_eq_getElem _ _ hn1,
      List.getD_eq_getElem _ _ hjn] at hjk
    have := @hinj ⟨j, hjn⟩ ⟨(s.ownedTokens a0).length - 1, hn1⟩
      (by simpa [List.get_eq_getElem] using hjk)
    have : j = (s.ownedTokens a0).length - 1 := congrArg Fin.val this
    omega
  · rw [if_neg hji, if_neg hki, List.getD_eq_getElem _ _ hjn,
      List.getD_eq_getElem _ _ hkn] at hjk
    have := @hinj ⟨j, hjn⟩ ⟨k, hkn⟩
      (by simpa [List.get_eq_getElem] using hjk)
    exact congrArg Fin.val this

theorem removeOwnedToken_idx_ok (s : State) {a0 tokenId : Nat}
    (hnd : (s.ownedTokens a0).Nodup)
    (hi : s.ownedTokenIndex tokenId < (s.ownedTokens a0).length)
    (hget : (s.ownedTokens a0).get ⟨s.ownedTokenIndex tokenId, hi⟩ = tokenId)
    (hall : ∀ u ∈ s.ownedTokens a0,
      ∃ h : s.ownedTokenIndex u < (s.ownedTokens a0).length,
        (s.ownedTokens a0).get ⟨s.ownedTokenIndex u, h⟩ = u)
    (t : Nat) (ht : t ∈ (removeOwnedToken s a0 tokenId).ownedTokens a0) :
    ∃ h : (removeOwnedToken s a0 tokenId).ownedTokenIndex t <
        ((removeOwnedToken s a0 tokenId).ownedTokens a0).length,
      ((removeOwnedToken s a0 tokenId).ownedTokens a0).get
        ⟨(removeOwnedToken s a0 tokenId).ownedTokenIndex t, h⟩ = t := by
  have hlen := removeOwnedToken_length s a0 tokenId
  have hinj : Function.Injective (s.ownedTokens a0).get :=
    List.nodup_iff_injective_get.mp hnd
  obtain ⟨htl, htne⟩ := (removeOwnedToken_mem s hnd hi hget t).mp ht
  obtain ⟨hu, hugget⟩ := hall t htl
  have hn1 : (s.ownedTokens a0).length - 1 < (s.ownedTokens a0).length := by omega
  have hidx := removeOwnedToken_index s a0 tokenId t
  rw [if_neg htne] at hidx
  by_cases hswap : s.ownedTokenIndex tokenId ≠ (s.ownedTokens a0).length - 1
  · by_cases hlast : t = (s.ownedTokens a0).getD ((s.ownedTokens a0).length - 1) 0
    · rw [if_pos ⟨hswap, hlast⟩] at hidx
      have hilt : s.ownedTokenIndex tokenId < (s.ownedTokens a0).length - 1 := by omega
      refine ⟨by rw [hlen, hidx]; exact hilt, ?_⟩
      rw [List.get_eq_getElem]
      have hb : (removeOwnedToken s a0 tokenId).ownedTokenIndex t <
          ((removeOwnedToken s a0 tokenId).ownedTokens a0).length := by
        rw [hlen, hidx]; exact hilt
      rw [← List.get_eq_getElem, removeOwnedToken_get s a0 tokenId _ hb]
      simp only [hidx, if_pos rfl]
      exact hlast.symm
    · rw [if_neg (fun hc => hlast hc.2)] at hidx
      have hune : s.ownedTokenIndex t ≠ s.ownedTokenIndex tokenId := by
        intro hc
        apply htne
        rw [← hugget, ← hget]
        congr 1
        exact Fin.ext hc
      have hu1 : s.ownedTokenIndex t ≠ (s.ownedTokens a0).length - 1 := by
        intro hc
        apply hlast
        rw [← hugget, List.get_eq_getElem, List.getD_eq_getElem _ _ hn1]
        congr 1
      have hult : s.ownedTokenIndex t < (s.ownedTokens a0).length - 1 := by omega
      refine ⟨by rw [hlen, hidx]; exact hult, ?_⟩
      have hb : (removeOwnedToken s a0 tokenId).ownedTokenIndex t <
          ((removeOwnedToken s a0 tokenId).ownedTokens a0).length := by
        rw [hlen, hidx]; exact hult
      rw [removeOwnedToken_get s a0 tokenId _ hb]
      simp only [hidx, if_neg hune]
      rw [List.getD_eq_getElem _ _ hu]
      simpa [List.get_eq_getElem] using hugget
  · rw [if_neg (fun hc => hswap hc.1)] at hidx
    push_neg at hswap
    have hu1 : s.ownedTokenIndex t ≠ (s.ownedTokens a0).length - 1 := by
      intro hc
      apply htne
      rw [← hugget, ← hget]
      congr 1
      exact Fin.ext (show s.ownedTokenIndex t = s.ownedTokenIndex tokenId by omega)
    have hune : s.ownedTokenIndex t ≠ s.ownedTokenIndex tokenId := by omega
    have hult : s.ownedTokenIndex t < (s.ownedTokens a0).length - 1 := by omega
    refine ⟨by rw [hlen, hidx]; exact hult, ?_⟩
    have hb : (removeOwnedToken s a0 tokenId).ownedTokenIndex t <
        ((removeOwnedToken s a0 tokenId).ownedTokens a0).length := by
      rw [hlen, hidx]; exact hult
    rw [removeOwnedToken_get s a0 tokenId _ hb]
    simp only [hidx, if_neg hune]
    rw [List.getD_eq_getElem _ _ hu]
    simpa [List.get_eq_getElem] using hugget

theorem removeOwnedToken_index_off (s : State) {a0 tokenId t : Nat}
    (hn : 1 ≤ (s.ownedTokens a0).length)
    (ht : t ∉ s.ownedTokens a0) (hne : t ≠ tokenId) :
    (removeOwnedToken s a0 tokenId).ownedTokenIndex t = s.ownedTokenIndex t := by
  have hn1 : (s.ownedTokens a0).length - 1 < (s.ownedTokens a0).length := by omega
  rw [removeOwnedToken_index, if_neg hne, if_neg]
  rintro ⟨-, hlast⟩
  apply ht
  rw [hlast, List.getD_eq_getElem _ _ hn1]
  exact List.getElem_mem _

/-- The ledger's internal consistency invariant: token ids 1..nextTokenId-1
exist exactly, the owned-token arrays partition the existing tokens by
owner without duplicates, balances equal array lengths, and the reverse
index points at each id's position in its owner's array. -/
structure Inv (s : State) : Prop where
  pos1 : 1 ≤ s.nextTokenId
  exist : ∀ t, (s.tokens t).owner ≠ 0 ↔ (1 ≤ t ∧ t < s.nextTokenId)
  owned0 : s.ownedTokens 0 = []
  mem : ∀ a, a ≠ 0 → ∀ t, (t ∈ s.ownedTokens a ↔ (s.tokens t).owner = a)
  nodup : ∀ a, (s.ownedTokens a).Nodup
  balLen : ∀ a, s.balances a = (s.ownedTokens a).length
  idx : ∀ a, ∀ t ∈ s.ownedTokens a,
    ∃ h : s.ownedTokenIndex t < (s.ownedTokens a).length,
      (s.ownedTokens a).get ⟨s.ownedTokenIndex t, h⟩ = t

theorem inv_initialState (self : Nat) : Inv (initialState self) := by
  refine ⟨le_refl 1, fun t => ?_, rfl, fun a ha t => ?_, fun a => ?_, fun a => ?_,
    fun a t ht => ?_⟩
  · simp only [initialState]
    constructor
    · intro h
      exact absurd rfl h
    · intro h
      omega
  · simp only [initialState, List.not_mem_nil, false_iff]
    omega
  · simp [initialState]
  · simp [initialState]
  · simp [initialState] at ht

/-- A successful mint, written as an explicit new state. -/
theorem mint_ok {validate : Nat → Nat → Option Nat} {caller : Nat} {uri : String}
    {ct pf : Nat} {s s' : State} {tokenId : Nat}
    (hok : mint validate caller uri ct pf s = .ok (tokenId, s')) :
    ∃ handle, validate ct pf = some handle ∧ tokenId = s.nextTokenId ∧
      s' = { nextTokenId := s.nextTokenId + 1
             tokens := upd s.tokens s.nextTokenId
               { owner := caller, realOwner := handle, metadataURI := uri }
             balances := upd s.balances caller (s.balances caller + 1)
             ownedTokens := upd s.ownedTokens caller (s.ownedTokens caller ++ [s.nextTokenId])
             ownedTokenIndex := upd s.ownedTokenIndex s.nextTokenId (s.ownedTokens caller).length
             acl := aclAllow (aclAllow s.acl handle s.self) handle caller
             self := s.self } := by
  unfold mint at hok
  cases hval : validate ct pf with
  | none => rw [hval] at hok; exact absurd hok (by simp)
  | some handle =>
    rw [hval] at hok
    injection hok with hok
    injection hok with h1 h2
    exact ⟨handle, rfl, h1.symm, h2.symm⟩

theorem inv_mint {validate : Nat → Nat → Option Nat} {caller tokenId : Nat}
    {uri : String} {ct pf : Nat} {s s' : State} (hInv : Inv s) (hc : caller ≠ 0)
    (hok : mint validate caller uri ct pf s = .ok (tokenId, s')) : Inv s' := by
  obtain ⟨handle, hval, hid, hs'⟩ := mint_ok hok
  subst hs'
  have hnew : ∀ t ∈ s.ownedTokens caller, t ≠ s.nextTokenId := by
    intro t htmem hcontra
    have h1 := (hInv.mem caller hc t).mp htmem
    have h2 := (hInv.exist t).mp (by rw [h1]; exact hc)
    omega
  refine ⟨?_, ?_, ?_, ?_, ?_, ?_, ?_⟩ <;> dsimp only
  · omega
  · intro t
    by_cases ht : t = s.nextTokenId
    · subst ht
      rw [upd_same]
      have := hInv.pos1
      constructor
      · intro _
        exact ⟨by omega, by omega⟩
      · intro _
        exact hc
    · rw [upd_ne ht]
      rw [hInv.exist t]
      constructor <;> intro h <;> [exact ⟨h.1, by omega⟩; exact ⟨h.1, by omega⟩]
  · rw [upd_ne (fun hcc => hc hcc.symm)]
    exact hInv.owned0
  · intro a ha t
    by_cases hac : a = caller
    · subst hac
      rw [upd_same]
      by_cases ht : t = s.nextTokenId
      · subst ht
        rw [upd_same]
        simp
      · rw [upd_ne ht]
        simp only [List.mem_append, List.mem_singleton, ht, or_false]
        exact hInv.mem a ha t
    · rw [upd_ne hac]
      by_cases ht : t = s.nextTokenId
      · subst ht
        rw [upd_same]
        constructor
        · intro hmem
          have h1 := (hInv.mem a ha _).mp hmem
          have h2 := (hInv.exist _).mp (by rw [h1]; exact ha)
          omega
        · intro hcc
          exact absurd hcc.symm hac
      · rw [upd_ne ht]
        exact hInv.mem a ha t
  · intro a
    by_cases hac : a = caller
    · subst hac
      rw [upd_same]
      refine List.Nodup.append (hInv.nodup a) (List.nodup_singleton _) ?_
      intro t htmem htmem1
      rw [List.mem_singleton] at htmem1
      exact hnew t htmem htmem1
    · rw [upd_ne hac]
      exact hInv.nodup a
  · intro a
    by_cases hac : a = caller
    · subst hac
      rw [upd_same, upd_same]
      simp [hInv.balLen a]
    · rw [upd_ne hac, upd_ne hac]
      exact hInv.balLen a
  · intro a t htmem
    by_cases hac : a = caller
    · subst hac
      rw [upd_same] at htmem ⊢
      rcases List.mem_append.mp htmem with hmem | hmem
      · have hne := hnew t hmem
        obtain ⟨hlt, hgg⟩ := hInv.idx a t hmem
        rw [upd_ne hne]
        refine ⟨by simp only [List.length_append, List.length_singleton]; omega, ?_⟩
        rw [List.get_eq_getElem,
          List.getElem_append _ (by simp only [List.length_append]; omega)]
        rw [dif_pos hlt]
        simpa [List.get_eq_getElem] using hgg
      · rw [List.mem_singleton] at hmem
        subst hmem
        rw [upd_same]
        refine ⟨by simp, ?_⟩
        rw [List.get_eq_getElem, List.getElem_append_right (by simp)]
        simp
    · rw [upd_ne hac] at htmem ⊢
      have ha : a ≠ 0 := by
        rintro rfl
        rw [hInv.owned0] at htmem
        exact absurd htmem (List.not_mem_nil t)
      have hne : t ≠ s.nextTokenId := by
        intro hcc
        have h1 := (hInv.mem a ha t).mp htmem
        have h2 := (hInv.exist t).mp (by rw [h1]; exact ha)
        omega
      obtain ⟨hlt, hgg⟩ := hInv.idx a t htmem
      rw [upd_ne hne]
      exact ⟨hlt, hgg⟩

theorem addOwnedToken_ownedTokens_fun (s : State) (a0 tokenId : Nat) :
    (addOwnedToken s a0 tokenId).ownedTokens =
      upd s.ownedTokens a0 (s.ownedTokens a0 ++ [tokenId]) := rfl

theorem addOwnedToken_ownedTokenIndex_fun (s : State) (a0 tokenId : Nat) :
    (addOwnedToken s a0 tokenId).ownedTokenIndex =
      upd s.ownedTokenIndex tokenId (s.ownedTokens a0).length := rfl

theorem removeOwnedToken_eqFields {s s' : State} (h1 : s.ownedTokens = s'.ownedTokens)
    (h2 : s.ownedTokenIndex = s'.ownedTokenIndex) (a0 tokenId : Nat) :
    (removeOwnedToken s a0 tokenId).ownedTokens =
        (removeOwnedToken s' a0 tokenId).ownedTokens ∧
      (removeOwnedToken s a0 tokenId).ownedTokenIndex =
        (removeOwnedToken s' a0 tokenId).ownedTokenIndex := by
  by_cases h : s'.ownedTokenIndex tokenId ≠ (s'.ownedTokens a0).length - 1 <;>
    constructor <;> simp [removeOwnedToken, h1, h2, h]

/-- A successful transferFrom: the four checks passed and the new state is
transferUpdate. -/
theorem transferFrom_ok {caller frm toAddr tokenId : Nat} {s s' : State}
    (hok : transferFrom caller frm toAddr tokenId s = .ok s') :
    (s.tokens tokenId).owner = frm ∧ frm ≠ 0 ∧ caller = frm ∧ toAddr ≠ 0 ∧
      s' = transferUpdate frm toAddr tokenId s := by
  unfold transferFrom at hok
  by_cases h1 : (s.tokens tokenId).owner = 0
  · simp [h1] at hok
  by_cases h2 : (s.tokens tokenId).owner ≠ frm
  · simp [h1, h2] at hok
  by_cases h3 : caller ≠ frm
  · simp [h1, h2, h3] at hok
  by_cases h4 : toAddr = 0
  · simp [h1, h2, h3, h4] at hok
  push_neg at h2 h3
  simp only [if_neg h1, if_neg (not_not_intro h2), if_neg (not_not_intro h3),
    if_neg h4] at hok
  injection hok with hok
  exact ⟨h2, by rw [← h2]; exact h1, h3, h4, hok.symm⟩

theorem transferUpdate_nextTokenId (frm toAddr tokenId : Nat) (s : State) :
    (transferUpdate frm toAddr tokenId s).nextTokenId = s.nextTokenId := by
  simp [transferUpdate, addOwnedToken, removeOwnedToken_nextTokenId]

theorem transferUpdate_self (frm toAddr tokenId : Nat) (s : State) :
    (transferUpdate frm toAddr tokenId s).self = s.self := by
  simp [transferUpdate, addOwnedToken, removeOwnedToken_self]

theorem transferUpdate_tokens (frm toAddr tokenId : Nat) (s : State) :
    (transferUpdate frm toAddr tokenId s).tokens =
      upd s.tokens tokenId { s.tokens tokenId with owner := toAddr } := by
  simp [transferUpdate, addOwnedToken, removeOwnedToken_tokens]

theorem transferUpdate_acl (frm toAddr tokenId : Nat) (s : State) :
    (transferUpdate frm toAddr tokenId s).acl =
      aclAllow s.acl (s.tokens tokenId).realOwner toAddr := by
  simp [transferUpdate, addOwnedToken, removeOwnedToken_acl]

theorem transferUpdate_balances (frm toAddr tokenId : Nat) (s : State) :
    (transferUpdate frm toAddr tokenId s).balances =
      upd (upd s.balances frm (s.balances frm - 1)) toAddr
        (upd s.balances frm (s.balances frm - 1) toAddr + 1) := by
  simp [transferUpdate, addOwnedToken, removeOwnedToken_balances]

theorem transferUpdate_owned (frm toAddr tokenId : Nat) (s : State) :
    (transferUpdate frm toAddr tokenId s).ownedTokens =
        (addOwnedToken (removeOwnedToken s frm tokenId) toAddr tokenId).ownedTokens ∧
      (transferUpdate frm toAddr tokenId s).ownedTokenIndex =
        (addOwnedToken (removeOwnedToken s frm tokenId) toAddr tokenId).ownedTokenIndex := by
  unfold transferUpdate
  dsimp only
  obtain ⟨e1, e2⟩ := @removeOwnedToken_eqFields { s with balances := upd (upd s.balances frm (s.balances frm - 1)) toAddr (upd s.balances frm (s.balances frm - 1) toAddr + 1) } s rfl rfl frm tokenId
  constructor
  · rw [addOwnedToken_ownedTokens_fun, addOwnedToken_ownedTokens_fun, e1]
  · rw [addOwnedToken_ownedTokenIndex_fun, addOwnedToken_ownedTokenIndex_fun, e1, e2]

theorem inv_grant {caller tokenId account : Nat} {s s' : State}
    (hInv : Inv s) (hok : grantDecryptPermission caller tokenId account s = .ok s') :
    Inv s' := by
  unfold grantDecryptPermission at hok
  by_cases h1 : (s.tokens tokenId).owner = 0
  · simp [h1] at hok
  by_cases h2 : caller ≠ (s.tokens tokenId).owner
  · simp [h1, h2] at hok
  by_cases h3 : account = 0
  · simp [h1, h2, h3] at hok
  simp only [if_neg h1, if_neg (not_not_intro (not_not.mp h2)), if_neg h3] at hok
  injection hok with hok
  subst hok
  exact ⟨hInv.pos1, hInv.exist, hInv.owned0, hInv.mem, hInv.nodup, hInv.balLen, hInv.idx⟩

theorem inv_transferUpdate {frm toAddr tokenId : Nat} {s : State} (hInv : Inv s)
    (hown : (s.tokens tokenId).owner = frm) (hfrm : frm ≠ 0) (hto : toAddr ≠ 0) :
    Inv (transferUpdate frm toAddr tokenId s) := by
  have hmem : tokenId ∈ s.ownedTokens frm := (hInv.mem frm hfrm tokenId).mpr hown
  obtain ⟨hi, hget⟩ := hInv.idx frm tokenId hmem
  have hnd := hInv.nodup frm
  have hexist := (hInv.exist tokenId).mp (by rw [hown]; exact hfrm)
  have hlen1 : 0 < (s.ownedTokens frm).length := List.length_pos_of_mem hmem
  obtain ⟨hOT, hOI⟩ := transferUpdate_owned frm toAddr tokenId s
  have hRmem := removeOwnedToken_mem s hnd hi hget
  have hRlen := removeOwnedToken_length s frm tokenId
  have hRnd := removeOwnedToken_nodup s frm tokenId hnd
  have hRother : ∀ a, a ≠ frm →
      (removeOwnedToken s frm tokenId).ownedTokens a = s.ownedTokens a :=
    fun a ha => removeOwnedToken_ownedTokens_other s tokenId ha
  have hRoff : ∀ t, t ∉ s.ownedTokens frm → t ≠ tokenId →
      (removeOwnedToken s frm tokenId).ownedTokenIndex t = s.ownedTokenIndex t :=
    fun t h1 h2 => removeOwnedToken_index_off s hlen1 h1 h2
  have hRidx := removeOwnedToken_idx_ok s hnd hi hget (hInv.idx frm)
  have htid : ∀ a, a ≠ frm → tokenId ∉ s.ownedTokens a := by
    intro a haf hmem'
    by_cases ha0 : a = 0
    · subst ha0
      rw [hInv.owned0] at hmem'
      exact absurd hmem' (List.not_mem_nil _)
    · have := (hInv.mem a ha0 tokenId).mp hmem'
      rw [hown] at this
      exact haf this.symm
  have hoth : ∀ a, a ≠ frm → ∀ t ∈ s.ownedTokens a, t ≠ tokenId ∧ t ∉ s.ownedTokens frm := by
    intro a haf t htm
    by_cases ha0 : a = 0
    · subst ha0
      rw [hInv.owned0] at htm
      exact absurd htm (List.not_mem_nil _)
    · have howt := (hInv.mem a ha0 t).mp htm
      constructor
      · intro hcc
        subst hcc
        rw [hown] at howt
        exact haf howt.symm
      · intro hcc
        have := (hInv.mem frm hfrm t).mp hcc
        rw [this] at howt
        exact haf howt.symm
  refine ⟨?_, ?_, ?_, ?_, ?_, ?_, ?_⟩
  · rw [transferUpdate_nextTokenId]
    exact hInv.pos1
  · intro t
    rw [transferUpdate_nextTokenId, transferUpdate_tokens]
    by_cases ht : t = tokenId
    · subst ht
      rw [upd_same]
      exact ⟨fun _ => hexist, fun _ => hto⟩
    · rw [upd_ne ht]
      exact hInv.exist t
  · rw [hOT, addOwnedToken_ownedTokens_other _ _ (fun hcc => hto hcc.symm),
      hRother 0 (fun hcc => hfrm hcc.symm)]
    exact hInv.owned0
  · intro a ha t
    rw [hOT, transferUpdate_tokens]
    by_cases hat : a = toAddr
    · subst hat
      rw [addOwnedToken_ownedTokens_self, List.mem_append, List.mem_singleton]
      by_cases hft : a = frm
      · subst hft
        rw [hRmem t]
        by_cases ht : t = tokenId
        · subst ht
          rw [upd_same]
          simp
        · rw [upd_ne ht]
          rw [hInv.mem a ha t]
          constructor
          · rintro (⟨h1, -⟩ | h1) <;> [exact h1; exact absurd h1 ht]
          · intro h1
            exact Or.inl ⟨h1, ht⟩
      · rw [hRother a hft]
        by_cases ht : t = tokenId
        · subst ht
          rw [upd_same]
          simp
        · rw [upd_ne ht]
          simp only [ht, or_false]
          rw [hInv.mem a ha t]
    · rw [addOwnedToken_ownedTokens_other _ _ hat]
      by_cases haf : a = frm
      · subst haf
        rw [hRmem t]
        by_cases ht : t = tokenId
        · subst ht
          rw [upd_same]
          simp only [ne_eq, not_true_eq_false, and_false, false_iff]
          intro hcc
          exact hat hcc.symm
        · rw [upd_ne ht]
          rw [hInv.mem a ha t]
          exact and_iff_left ht
      · rw [hRother a haf]
        by_cases ht : t = tokenId
        · subst ht
          rw [upd_same]
          constructor
          · intro hmem'
            exact absurd hmem' (htid a haf)
          · intro hcc
            exact absurd hcc.symm hat
        · rw [upd_ne ht]
          exact hInv.mem a ha t
  · intro a
    rw [hOT]
    by_cases hat : a = toAddr
    · subst hat
      rw [addOwnedToken_ownedTokens_self]
      by_cases hft : a = frm
      · subst hft
        refine List.Nodup.append hRnd (List.nodup_singleton _) ?_
        intro t htm htm1
        rw [List.mem_singleton] at htm1
        subst htm1
        exact ((hRmem t).mp htm).2 rfl
      · rw [hRother a hft]
        refine List.Nodup.append (hInv.nodup a) (List.nodup_singleton _) ?_
        intro t htm htm1
        rw [List.mem_singleton] at htm1
        subst htm1
        exact htid a hft htm
    · rw [addOwnedToken_ownedTokens_other _ _ hat]
      by_cases haf : a = frm
      · subst haf
        exact hRnd
      · rw [hRother a haf]
        exact hInv.nodup a
  · intro a
    rw [hOT, transferUpdate_balances]
    by_cases hat : a = toAddr
    · subst hat
      rw [upd_same, addOwnedToken_ownedTokens_self, List.length_append,
        List.length_singleton]
      by_cases hft : a = frm
      · subst hft
        rw [upd_same, hRlen, hInv.balLen a]
      · rw [upd_ne hft, hRother a hft, hInv.balLen a]
    · rw [upd_ne hat, addOwnedToken_ownedTokens_other _ _ hat]
      by_cases haf : a = frm
      · subst haf
        rw [upd_same, hRlen, hInv.balLen a]
      · rw [upd_ne haf, hRother a haf]
        exact hInv.balLen a
  · intro a t htmem
    rw [hOT] at htmem
    rw [hOT, hOI]
    by_cases hat : a = toAddr
    · subst hat
      rw [addOwnedToken_ownedTokens_self] at htmem ⊢
      by_cases ht : t = tokenId
      · subst ht
        rw [addOwnedToken_index_self]
        refine ⟨by simp, ?_⟩
        rw [List.get_eq_getElem, List.getElem_append_right (le_refl _)]
        simp
      · have htm' : t ∈ (removeOwnedToken s frm tokenId).ownedTokens a := by
          rcases List.mem_append.mp htmem with h | h
          · exact h
          · rw [List.mem_singleton] at h
            exact absurd h ht
        rw [addOwnedToken_index_other _ _ ht]
        have hbase : ∃ h : (removeOwnedToken s frm tokenId).ownedTokenIndex t <
            ((removeOwnedToken s frm tokenId).ownedTokens a).length,
            ((removeOwnedToken s frm tokenId).ownedTokens a).get
              ⟨(removeOwnedToken s frm tokenId).ownedTokenIndex t, h⟩ = t := by
          by_cases hft : a = frm
          · subst hft
            exact hRidx t htm'
          · rw [hRother a hft] at htm' ⊢
            obtain ⟨hne, hnotin⟩ := hoth a hft t htm'
            rw [hRoff t hnotin hne]
            exact hInv.idx a t htm'
        obtain ⟨hlt, hgg⟩ := hbase
        refine ⟨by rw [List.length_append]; omega, ?_⟩
        rw [List.get_eq_getElem,
          List.getElem_append _ (by simp only [List.length_append]; omega)]
        rw [dif_pos hlt]
        simpa [List.get_eq_getElem] using hgg
    · rw [addOwnedToken_ownedTokens_other _ _ hat] at htmem ⊢
      have ht : t ≠ tokenId := by
        by_cases haf : a = frm
        · subst haf
          exact ((hRmem t).mp htmem).2
        · rw [hRother a haf] at htmem
          exact (hoth a haf t htmem).1
      rw [addOwnedToken_index_other _ _ ht]
      by_cases haf : a = frm
      · subst haf
        exact hRidx t htmem
      · rw [hRother a haf] at htmem ⊢
        obtain ⟨hne, hnotin⟩ := hoth a haf t htmem
        rw [hRoff t hnotin hne]
        exact hInv.idx a t htmem

theorem inv_transfer {caller frm toAddr tokenId : Nat} {s s' : State}
    (hInv : Inv s) (hok : transferFrom caller frm toAddr tokenId s = .ok s') : Inv s' := by
  obtain ⟨hown, hfrm, hcall, hto, hs'⟩ := transferFrom_ok hok
  subst hs'
  exact inv_transferUpdate hInv hown hfrm hto

theorem inv_step {validate : Nat → Nat → Option Nat} {op : Op} {s s' : State}
    (hInv : Inv s) (hc : op.caller ≠ 0) (hok : step validate op s = .ok s') : Inv s' := by
  cases op with
  | mint c u ct pf =>
    simp only [step] at hok
    cases hm : mint validate c u ct pf s with
    | error e => rw [hm] at hok; exact absurd hok (by simp [Except.map])
    | ok r =>
      obtain ⟨tid, s2⟩ := r
      rw [hm] at hok
      simp only [Except.map] at hok
      injection hok with hok
      subst hok
      exact inv_mint hInv hc hm
  | grant c id a => exact inv_grant hInv hok
  | transfer c f t id => exact inv_transfer hInv hok
  | safeTransfer ok c f t id =>
    simp only [step, safeTransferFrom] at hok
    cases htr : transferFrom c f t id s with
    | error e => rw [htr] at hok; exact absurd hok (by simp)
    | ok s1 =>
      rw [htr] at hok
      by_cases hacc : ok = true
      · simp only [hacc, if_true] at hok
        injection hok with hok
        subst hok
        exact inv_transfer hInv htr
      · simp [hacc] at hok

theorem reachable_inv {validate : Nat → Nat → Option Nat} {s : State}
    (h : Reachable validate s) : Inv s := by
  induction h with
  | init self => exact inv_initialState self
  | step hr hc hok ih => exact inv_step ih hc hok

/-- A successful grantDecryptPermission: the checks passed and only the ACL
gained a pair. -/
theorem grant_ok {caller tokenId account : Nat} {s s' : State}
    (hok : grantDecryptPermission caller tokenId account s = .ok s') :
    (s.tokens tokenId).owner ≠ 0 ∧ caller = (s.tokens tokenId).owner ∧ account ≠ 0 ∧
      s' = { s with acl := aclAllow s.acl (s.tokens tokenId).realOwner account } := by
  unfold grantDecryptPermission at hok
  by_cases h1 : (s.tokens tokenId).owner = 0
  · simp [h1] at hok
  by_cases h2 : caller ≠ (s.tokens tokenId).owner
  · simp [h1, h2] at hok
  by_cases h3 : account = 0
  · simp [h1, h2, h3] at hok
  simp only [if_neg h1, if_neg (not_not_intro (not_not.mp h2)), if_neg h3] at hok
  injection hok with hok
  exact ⟨h1, not_not.mp h2, h3, hok.symm⟩

/-- No single successful operation removes an ACL pair. -/
theorem step_acl_mono {validate : Nat → Nat → Option Nat} {op : Op} {s s' : State}
    (hok : step validate op s = .ok s') {p : Nat × Nat} (hp : p ∈ s.acl) : p ∈ s'.acl := by
  cases op with
  | mint c u ct pf =>
    simp only [step] at hok
    cases hm : mint validate c u ct pf s with
    | error e => rw [hm] at hok; exact absurd hok (by simp [Except.map])
    | ok r =>
      obtain ⟨tid, s2⟩ := r
      rw [hm] at hok
      simp only [Except.map] at hok
      injection hok with hok
      subst hok
      obtain ⟨handle, -, -, hs2⟩ := mint_ok hm
      subst hs2
      exact aclAllow_subset (aclAllow_subset hp)
  | grant c id a =>
    obtain ⟨-, -, -, hs'⟩ := grant_ok hok
    subst hs'
    exact aclAllow_subset hp
  | transfer c f t id =>
    obtain ⟨-, -, -, -, hs'⟩ := transferFrom_ok hok
    subst hs'
    rw [transferUpdate_acl]
    exact aclAllow_subset hp
  | safeTransfer ok c f t id =>
    simp only [step, safeTransferFrom] at hok
    cases htr : transferFrom c f t id s with
    | error e => rw [htr] at hok; exact absurd hok (by simp)
    | ok s1 =>
      rw [htr] at hok
      by_cases hacc : ok = true
      · simp only [hacc, if_true] at hok
        injection hok with hok
        subst hok
        obtain ⟨-, -, -, -, hs1⟩ := transferFrom_ok htr
        subst hs1
        rw [transferUpdate_acl]
        exact aclAllow_subset hp
      · simp [hacc] at hok

/-- Claim C3: along any run of successful mint, grantDecryptPermission,
transferFrom and safeTransferFrom operations, an ACL pair (ciphertext
handle, address) present in the starting state is still present after the
whole run — no operation of the protocol ever removes a grant. -/
theorem C3_grants_never_revoked (validate : Nat → Nat → Option Nat)
    (s s' : State) (ops : List Op) (hsteps : Steps validate s ops s')
    (p : Nat × Nat) (hp : p ∈ s.acl) : p ∈ s'.acl := by
  induction hsteps with
  | nil s => exact hp
  | cons hc hok hrest ih => exact ih (step_acl_mono hok hp)

/-- Witness for C3: on a concrete run, the minter's grant on token 1
survives a later grant to a third party and a transfer to a new owner. -/
theorem C3_grants_never_revoked_witness : ((7 : Nat), (1 : Nat)) ∈ exS2.acl :=
  C3_grants_never_revoked exValidate exS0 exS2 [Op.grant 1 1 3, Op.transfer 1 1 2 1]
    (Steps.cons (by decide) rfl (Steps.cons (by decide) rfl (Steps.nil exS2)))
    (7, 1) (by decide)

/-- Claim C1: in every reachable state (any finite sequence of successful
mint, grantDecryptPermission and transferFrom operations from the freshly
deployed state), the sum of balances over all addresses — formalised as the
sum over any finite set containing every address of nonzero balance —
equals totalSupply, which equals nextTokenId - 1. -/
theorem C1_sum_balances (validate : Nat → Nat → Option Nat) (s : State)
    (hr : Reachable validate s) (S : Finset Nat)
    (hS : ∀ a, s.balances a ≠ 0 → a ∈ S) :
    (∑ a ∈ S, s.balances a) = totalSupply s ∧ totalSupply s = s.nextTokenId - 1 := by
  have hI := reachable_inv hr
  refine ⟨?_, rfl⟩
  have hmap : ∀ t ∈ Finset.Ico 1 s.nextTokenId, (s.tokens t).owner ∈ S := by
    intro t htm
    rw [Finset.mem_Ico] at htm
    have how : (s.tokens t).owner ≠ 0 := (hI.exist t).mpr ⟨htm.1, htm.2⟩
    apply hS
    rw [hI.balLen]
    have hmm : t ∈ s.ownedTokens (s.tokens t).owner := (hI.mem _ how t).mpr rfl
    have := List.length_pos_of_mem hmm
    omega
  have hcard := Finset.card_eq_sum_card_fiberwise hmap
  rw [Nat.card_Ico] at hcard
  have hfib : ∀ a ∈ S, s.balances a =
      (Finset.filter (fun t => (s.tokens t).owner = a) (Finset.Ico 1 s.nextTokenId)).card := by
    intro a _
    by_cases ha : a = 0
    · subst ha
      rw [hI.balLen, hI.owned0, List.length_nil]
      symm
      rw [Finset.card_eq_zero, Finset.filter_eq_empty_iff]
      intro t htm
      rw [Finset.mem_Ico] at htm
      exact (hI.exist t).mpr ⟨htm.1, htm.2⟩
    · rw [hI.balLen, ← List.toFinset_card_of_nodup (hI.nodup a)]
      congr 1
      ext t
      rw [List.mem_toFinset, hI.mem a ha t, Finset.mem_filter, Finset.mem_Ico]
      constructor
      · intro how
        have hne : (s.tokens t).owner ≠ 0 := by rw [how]; exact ha
        have := (hI.exist t).mp hne
        exact ⟨⟨this.1, this.2⟩, how⟩
      · exact fun h => h.2
  rw [Finset.sum_congr rfl hfib, ← hcard]
  rfl

/-- Witness for C1 at a concrete reachable state: after one mint by
address 1, the only nonzero balance is address 1 and the sum is 1. -/
theorem C1_sum_balances_witness :
    (∑ a ∈ ({1} : Finset Nat), exS0.balances a) = totalSupply exS0 ∧
      totalSupply exS0 = exS0.nextTokenId - 1 :=
  C1_sum_balances exValidate exS0
    (@Reachable.step exValidate (initialState 9) exS0 (Op.mint 1 "uri" 7 1)
      (@Reachable.init exValidate 9) (by decide) rfl) {1}
    (by
      intro a ha
      have hb : exS0.balances = fun x => if x = 1 then 1 else 0 := rfl
      rw [hb] at ha
      by_cases h : a = 1
      · simp [h]
      · simp [h] at ha)

/-- Claim C4: after a successful mint by caller A, the returned id is the
nextTokenId counter value before the call, the counter advances by one
(with the deployed counter starting at 1 this gives consecutive allocation,
ids never reused), ownerOf gives A, A's balance grows by one, A's
owned-token list holds the new id exactly once, tokenURI returns the
supplied uri, and both the contract itself and A hold ACL grants on the
stored ciphertext handle. -/
theorem C4_mint_post (validate : Nat → Nat → Option Nat) (s s' : State)
    (caller tokenId : Nat) (uri : String) (ct pf : Nat)
    (hr : Reachable validate s) (hc : caller ≠ 0)
    (hok : mint validate caller uri ct pf s = .ok (tokenId, s')) :
    tokenId = s.nextTokenId ∧ s'.nextTokenId = s.nextTokenId + 1 ∧
      ownerOf s' tokenId = .ok caller ∧
      s'.balances caller = s.balances caller + 1 ∧
      List.count tokenId (tokensOfOwner s' caller) = 1 ∧
      tokenURI s' tokenId = .ok uri ∧
      ((s'.tokens tokenId).realOwner, s.self) ∈ s'.acl ∧
      ((s'.tokens tokenId).realOwner, caller) ∈ s'.acl := by
  have hI := reachable_inv hr
  have hI' : Inv s' := inv_mint hI hc hok
  obtain ⟨handle, hval, hid, hs'⟩ := mint_ok hok
  subst hid
  have hcount : List.count s.nextTokenId (tokensOfOwner s' caller) = 1 := by
    refine List.count_eq_one_of_mem (hI'.nodup caller) ?_
    refine (hI'.mem caller hc s.nextTokenId).mpr ?_
    rw [hs']
    dsimp only
    rw [upd_same]
  subst hs'
  refine ⟨rfl, rfl, ?_, ?_, hcount, ?_, ?_, ?_⟩
  · unfold ownerOf
    dsimp only
    rw [upd_same]
    dsimp only
    rw [if_neg hc]
  · dsimp only
    rw [upd_same]
  · unfold tokenURI
    dsimp only
    rw [upd_same]
    dsimp only
    rw [if_neg hc]
  · dsimp only
    rw [upd_same]
    exact aclAllow_subset self_mem_aclAllow
  · dsimp only
    rw [upd_same]
    exact self_mem_aclAllow

/-- Witness for C4: the first mint on a fresh contract. -/
theorem C4_mint_post_witness :
    (1 : Nat) = (initialState 9).nextTokenId ∧
      exS0.nextTokenId = (initialState 9).nextTokenId + 1 ∧
      ownerOf exS0 1 = .ok 1 ∧
      exS0.balances 1 = (initialState 9).balances 1 + 1 ∧
      List.count 1 (tokensOfOwner exS0 1) = 1 ∧
      tokenURI exS0 1 = .ok "uri" ∧
      ((exS0.tokens 1).realOwner, (initialState 9).self) ∈ exS0.acl ∧
      ((exS0.tokens 1).realOwner, 1) ∈ exS0.acl :=
  C4_mint_post exValidate (initialState 9) exS0 1 1 "uri" 7 1
    (@Reachable.init exValidate 9) (by decide) rfl

/-- Claim C7: when caller A owns existing token id and B is nonzero,
grantDecryptPermission succeeds, adds the pair (handle of id, B) to the
ACL relation, and is idempotent: a second identical call returns exactly
the state produced by the first. -/
theorem C7_grant_idempotent (s : State) (A B tokenId : Nat)
    (hown : (s.tokens tokenId).owner = A) (hA : A ≠ 0) (hB : B ≠ 0) :
    ∃ s', grantDecryptPermission A tokenId B s = .ok s' ∧
      ((s.tokens tokenId).realOwner, B) ∈ s'.acl ∧
      grantDecryptPermission A tokenId B s' = .ok s' := by
  have h0 : (s.tokens tokenId).owner ≠ 0 := by rw [hown]; exact hA
  refine ⟨{ s with acl := aclAllow s.acl (s.tokens tokenId).realOwner B }, ?_, ?_, ?_⟩
  · unfold grantDecryptPermission
    rw [if_neg h0, if_neg (not_not_intro hown.symm), if_neg hB]
  · dsimp only
    exact self_mem_aclAllow
  · unfold grantDecryptPermission
    dsimp only
    rw [if_neg h0, if_neg (not_not_intro hown.symm), if_neg hB, aclAllow_idem]

/-- Witness for C7: the owner of token 1 grants address 3. -/
theorem C7_grant_idempotent_witness :
    ∃ s', grantDecryptPermission 1 1 3 exS0 = .ok s' ∧
      ((exS0.tokens 1).realOwner, 3) ∈ s'.acl ∧
      grantDecryptPermission 1 1 3 s' = .ok s' :=
  C7_grant_idempotent exS0 1 3 1 rfl (by decide) (by decide)

/-- Claim C5: transferFrom checks its preconditions in source order and
fails with the first violated one — nonexistent token (NotFound "Token
does not exist"), stored owner not frm (InconsistentState "Transfer from
incorrect owner"), caller not frm (Unauthorized "Caller is not owner"),
zero receiver (InvalidArgument) — and any failed transfer leaves the state
unchanged under the transaction semantics. -/
theorem C5_transfer_errors (validate : Nat → Nat → Option Nat)
    (s : State) (caller frm toAddr tokenId : Nat) :
    ((s.tokens tokenId).owner = 0 →
        transferFrom caller frm toAddr tokenId s =
          .error (.NotFound "Token does not exist")) ∧
      ((s.tokens tokenId).owner ≠ 0 → (s.tokens tokenId).owner ≠ frm →
        transferFrom caller frm toAddr tokenId s =
          .error (.InconsistentState "Transfer from incorrect owner")) ∧
      ((s.tokens tokenId).owner ≠ 0 → (s.tokens tokenId).owner = frm → caller ≠ frm →
        transferFrom caller frm toAddr tokenId s =
          .error (.Unauthorized "Caller is not owner")) ∧
      ((s.tokens tokenId).owner ≠ 0 → (s.tokens tokenId).owner = frm → caller = frm →
        toAddr = 0 →
        transferFrom caller frm toAddr tokenId s =
          .error (.InvalidArgument "Invalid receiver")) ∧
      (∀ e, transferFrom caller frm toAddr tokenId s = .error e →
        exec validate (.transfer caller frm toAddr tokenId) s = s) := by
  refine ⟨?_, ?_, ?_, ?_, ?_⟩
  · intro h1
    simp only [transferFrom]
    rw [if_pos h1]
  · intro h1 h2
    simp only [transferFrom]
    rw [if_neg h1, if_pos h2]
  · intro h1 h2 h3
    simp only [transferFrom]
    rw [if_neg h1, if_neg (not_not_intro h2), if_pos h3]
  · intro h1 h2 h3 h4
    simp only [transferFrom]
    rw [if_neg h1, if_neg (not_not_intro h2), if_neg (not_not_intro h3), if_pos h4]
  · intro e he
    simp only [exec, step, he]

/-- Witness for C5: a non-owner attempting a transfer fails with the
third check, matching the repository test suite. -/
theorem C5_transfer_errors_witness :
    transferFrom 3 1 3 1 exS0 = .error (.Unauthorized "Caller is not owner") :=
  (C5_transfer_errors exValidate exS0 3 1 3 1).2.2.1 (by decide) (by decide) (by decide)

/-- Claim C6: when ciphertext validation fails, mint fails with
InvalidCiphertext, the state is unchanged (the transaction reverts), so
the next successful mint returns exactly the id the failed mint would
have returned — the current nextTokenId. -/
theorem C6_invalid_ciphertext (validate : Nat → Nat → Option Nat) (caller : Nat)
    (uri : String) (ct pf : Nat) (s : State) (hval : validate ct pf = none) :
    mint validate caller uri ct pf s = .error .InvalidCiphertext ∧
      exec validate (.mint caller uri ct pf) s = s ∧
      (∀ caller2 uri2 ct2 pf2 tokenId2 s2,
        mint validate caller2 uri2 ct2 pf2 s = .ok (tokenId2, s2) →
          tokenId2 = s.nextTokenId) := by
  have hfail : mint validate caller uri ct pf s = .error .InvalidCiphertext := by
    unfold mint
    rw [hval]
  refine ⟨hfail, ?_, ?_⟩
  · simp only [exec, step, hfail, Except.map]
  · intro c2 u2 ct2 pf2 id2 s2 hok
    obtain ⟨h, -, hid, -⟩ := mint_ok hok
    exact hid

/-- Witness for C6: a mint with a bad proof on a concrete state fails and
changes nothing. -/
theorem C6_invalid_ciphertext_witness :
    mint exValidate 2 "u2" 8 0 exS0 = .error .InvalidCiphertext ∧
      exec exValidate (.mint 2 "u2" 8 0) exS0 = exS0 :=
  ⟨(C6_invalid_ciphertext exValidate 2 "u2" 8 0 exS0 rfl).1,
   (C6_invalid_ciphertext exValidate 2 "u2" 8 0 exS0 rfl).2.1⟩

/-- Claim C8: in every reachable state, ownerOf, tokenURI and
getEncryptedRealOwner succeed exactly on ids with 1 <= id < nextTokenId
and fail with NotFound otherwise, and balanceOf fails with InvalidArgument
exactly on the zero address; no other well-formed read fails. -/
theorem C8_reads (validate : Nat → Nat → Option Nat) (s : State)
    (hr : Reachable validate s) :
    (∀ tokenId, 1 ≤ tokenId ∧ tokenId < s.nextTokenId →
        ownerOf s tokenId = .ok (s.tokens tokenId).owner ∧
          tokenURI s tokenId = .ok (s.tokens tokenId).metadataURI ∧
          getEncryptedRealOwner s tokenId = .ok (s.tokens tokenId).realOwner) ∧
      (∀ tokenId, ¬(1 ≤ tokenId ∧ tokenId < s.nextTokenId) →
        ownerOf s tokenId = .error (.NotFound "Token does not exist") ∧
          tokenURI s tokenId = .error (.NotFound "Token does not exist") ∧
          getEncryptedRealOwner s tokenId = .error (.NotFound "Token does not exist")) ∧
      balanceOf s 0 = .error (.InvalidArgument "Invalid owner") ∧
      (∀ a, a ≠ 0 → balanceOf s a = .ok (s.balances a)) := by
  have hI := reachable_inv hr
  refine ⟨?_, ?_, ?_, ?_⟩
  · intro id hid
    have h := (hI.exist id).mpr hid
    simp [ownerOf, tokenURI, getEncryptedRealOwner, h]
  · intro id hid
    have h : (s.tokens id).owner = 0 := by
      by_contra hcon
      exact hid ((hI.exist id).mp hcon)
    simp [ownerOf, tokenURI, getEncryptedRealOwner, h]
  · simp [balanceOf]
  · intro a ha
    simp [balanceOf, ha]

/-- Witness for C8: on a concrete reachable state, token 1 is readable,
token 2 is NotFound, and the zero-address balance query fails. -/
theorem C8_reads_witness :
    ownerOf exS0 1 = .ok (exS0.tokens 1).owner ∧
      ownerOf exS0 2 = .error (.NotFound "Token does not exist") ∧
      balanceOf exS0 0 = .error (.InvalidArgument "Invalid owner") := by
  have h := C8_reads exValidate exS0
    (@Reachable.step exValidate (initialState 9) exS0 (Op.mint 1 "uri" 7 1)
      (@Reachable.init exValidate 9) (by decide) rfl)
  exact ⟨(h.1 1 (by decide)).1, (h.2.1 2 (by decide)).1, h.2.2.1⟩

/-- Claim C9: every successful non-mint operation (any grant, any transfer
or safe transfer of any token) leaves every token's stored realOwner
handle and metadataURI unchanged — only mint writes these two fields. -/
theorem C9_frame (validate : Nat → Nat → Option Nat) (op : Op) (s s' : State)
    (hnm : op.isMint = false) (hok : step validate op s = .ok s') :
    ∀ tokenId, (s'.tokens tokenId).realOwner = (s.tokens tokenId).realOwner ∧
      (s'.tokens tokenId).metadataURI = (s.tokens tokenId).metadataURI := by
  intro id
  cases op with
  | mint c u ct pf => simp [Op.isMint] at hnm
  | grant c id2 a =>
    obtain ⟨-, -, -, hs'⟩ := grant_ok hok
    subst hs'
    exact ⟨rfl, rfl⟩
  | transfer c f t id2 =>
    obtain ⟨-, -, -, -, hs'⟩ := transferFrom_ok hok
    subst hs'
    rw [transferUpdate_tokens]
    by_cases h : id = id2
    · subst h
      rw [upd_same]
      exact ⟨rfl, rfl⟩
    · rw [upd_ne h]
      exact ⟨rfl, rfl⟩
  | safeTransfer ok c f t id2 =>
    simp only [step, safeTransferFrom] at hok
    cases htr : transferFrom c f t id2 s with
    | error e => rw [htr] at hok; exact absurd hok (by simp)
    | ok s1 =>
      rw [htr] at hok
      by_cases hacc : ok = true
      · simp only [hacc, if_true] at hok
        injection hok with hok
        subst hok
        obtain ⟨-, -, -, -, hs1⟩ := transferFrom_ok htr
        subst hs1
        rw [transferUpdate_tokens]
        by_cases h : id = id2
        · subst h
          rw [upd_same]
          exact ⟨rfl, rfl⟩
        · rw [upd_ne h]
          exact ⟨rfl, rfl⟩
      · simp [hacc] at hok

/-- Witness for C9: the transfer of token 1 keeps its handle and URI. -/
theorem C9_frame_witness :
    (exS2.tokens 1).realOwner = (exS1.tokens 1).realOwner ∧
      (exS2.tokens 1).metadataURI = (exS1.tokens 1).metadataURI :=
  C9_frame exValidate (.transfer 1 1 2 1) exS1 exS2 rfl rfl 1

/-- Claim C10: self-transfer is permitted at the public interface: when A
owns token id in a reachable state, transferFrom(A, A, id) called by A
succeeds, ownerOf(id) is still A, A's balance is unchanged, and A's
owned-token list still holds id exactly once (swap-and-pop removal plus
re-append keeps the owned set and reverse index consistent). -/
theorem C10_self_transfer (validate : Nat → Nat → Option Nat) (s : State)
    (A tokenId : Nat) (hr : Reachable validate s)
    (hown : (s.tokens tokenId).owner = A) (hA : A ≠ 0) :
    ∃ s', transferFrom A A A tokenId s = .ok s' ∧
      ownerOf s' tokenId = .ok A ∧
      s'.balances A = s.balances A ∧
      List.count tokenId (tokensOfOwner s' A) = 1 := by
  have hI := reachable_inv hr
  have h0 : (s.tokens tokenId).owner ≠ 0 := by rw [hown]; exact hA
  have hI' := inv_transferUpdate hI hown hA hA
  have hmem : tokenId ∈ s.ownedTokens A := (hI.mem A hA tokenId).mpr hown
  have hbal : 1 ≤ s.balances A := by
    rw [hI.balLen]
    exact List.length_pos_of_mem hmem
  refine ⟨transferUpdate A A tokenId s, ?_, ?_, ?_, ?_⟩
  · simp only [transferFrom]
    rw [if_neg h0, if_neg (not_not_intro hown), if_neg (not_not_intro rfl), if_neg hA]
    rfl
  · simp [ownerOf, transferUpdate_tokens, hA]
  · rw [transferUpdate_balances, upd_same, upd_same]
    omega
  · refine List.count_eq_one_of_mem (hI'.nodup A) ?_
    refine (hI'.mem A hA tokenId).mpr ?_
    rw [transferUpdate_tokens, upd_same]

/-- Witness for C10: the owner self-transfers token 1. -/
theorem C10_self_transfer_witness :
    ∃ s', transferFrom 1 1 1 1 exS0 = .ok s' ∧
      ownerOf s' 1 = .ok 1 ∧
      s'.balances 1 = exS0.balances 1 ∧
      List.count 1 (tokensOfOwner s' 1) = 1 :=
  C10_self_transfer exValidate exS0 1 1
    (@Reachable.step exValidate (initialState 9) exS0 (Op.mint 1 "uri" 7 1)
      (@Reachable.init exValidate 9) (by decide) rfl)
    rfl (by decide)

/-- Counterexample to C2 as stated: the claim quantifies over every B, but
at B = A (a self-transfer, which succeeds) A's balance does not decrease
and tokensOfOwner(A) still contains the id. -/
theorem C2_self_transfer_counterexample :
    (exS0.tokens 1).owner = 1 ∧
      transferFrom 1 1 1 1 exS0 = .ok exSelf ∧
      1 ∈ tokensOfOwner exSelf 1 ∧
      exSelf.balances 1 = exS0.balances 1 :=
  ⟨rfl, rfl, by decide, by decide⟩

/-- Claim C2, amended with B distinct from A (the B = A case is the
self-transfer behaviour covered by C10): after a successful
transferFrom(A, B, id) called by A from a reachable state, ownerOf(id)=B,
A's balance decreased by one, B's balance increased by one,
tokensOfOwner(A) no longer contains id, tokensOfOwner(B) contains it
exactly once, the ACL gained the pair (id's handle, B), and every grant
present before the transfer — including A's — is still present. -/
theorem C2_transfer_post (validate : Nat → Nat → Option Nat) (s s' : State)
    (A B tokenId : Nat) (hr : Reachable validate s) (hAB : A ≠ B)
    (hok : transferFrom A A B tokenId s = .ok s') :
    ownerOf s' tokenId = .ok B ∧
      s.balances A = s'.balances A + 1 ∧
      s'.balances B = s.balances B + 1 ∧
      tokenId ∉ tokensOfOwner s' A ∧
      List.count tokenId (tokensOfOwner s' B) = 1 ∧
      ((s.tokens tokenId).realOwner, B) ∈ s'.acl ∧
      (∀ p ∈ s.acl, p ∈ s'.acl) := by
  have hI := reachable_inv hr
  obtain ⟨hown, hA0, -, hB0, hs'⟩ := transferFrom_ok hok
  subst hs'
  have hI' := inv_transferUpdate hI hown hA0 hB0
  have hmem : tokenId ∈ s.ownedTokens A := (hI.mem A hA0 tokenId).mpr hown
  have hbal : 1 ≤ s.balances A := by
    rw [hI.balLen]
    exact List.length_pos_of_mem hmem
  obtain ⟨hOT, hOI⟩ := transferUpdate_owned A B tokenId s
  refine ⟨?_, ?_, ?_, ?_, ?_, ?_, ?_⟩
  · simp [ownerOf, transferUpdate_tokens, hB0]
  · rw [transferUpdate_balances, upd_ne hAB, upd_same]
    omega
  · rw [transferUpdate_balances, upd_same, upd_ne (fun h => hAB h.symm)]
  · obtain ⟨hi, hget⟩ := hI.idx A tokenId hmem
    have hnd := hI.nodup A
    intro hctr
    simp only [tokensOfOwner] at hctr
    rw [hOT, addOwnedToken_ownedTokens_other _ _ hAB] at hctr
    exact ((removeOwnedToken_mem s hnd hi hget tokenId).mp hctr).2 rfl
  · refine List.count_eq_one_of_mem (hI'.nodup B) ?_
    refine (hI'.mem B hB0 tokenId).mpr ?_
    rw [transferUpdate_tokens, upd_same]
  · rw [transferUpdate_acl]
    exact self_mem_aclAllow
  · intro p hp
    rw [transferUpdate_acl]
    exact aclAllow_subset hp

/-- Witness for the amended C2: transfer of token 1 from address 1 to
address 2 after a mint and a third-party grant. -/
theorem C2_transfer_post_witness :
    ownerOf exS2 1 = .ok 2 ∧
      exS1.balances 1 = exS2.balances 1 + 1 ∧
      exS2.balances 2 = exS1.balances 2 + 1 ∧
      1 ∉ tokensOfOwner exS2 1 ∧
      List.count 1 (tokensOfOwner exS2 2) = 1 ∧
      ((exS1.tokens 1).realOwner, 2) ∈ exS2.acl ∧
      (∀ p ∈ exS1.acl, p ∈ exS2.acl) :=
  C2_transfer_post exValidate exS1 exS2 1 2 1
    (@Reachable.step exValidate exS0 exS1 (Op.grant 1 1 3)
      (@Reachable.step exValidate (initialState 9) exS0 (Op.mint 1 "uri" 7 1)
        (@Reachable.init exValidate 9) (by decide) rfl)
      (by decide) rfl)
    (by decide) rfl

end ShadowMint
